import Mathlib

/-!
# Verification of the legacy picture-resource decoder (`images_sdl.cpp`)

This development shallowly embeds the PICT-resource decoder of
`Source_Files/Misc/images_sdl.cpp`:

* `unpack_bits` — the PackBits run-length scan-line unpacker (template over
  `uint8`/`uint16`, modelled by the output-unit width `w`);
* `uncompress_rle8` / `uncompress_rle16` / `uncompress_rle32` — the three
  depth-specific decompressors;
* `uncompress_picture` — the umbrella dispatch;
* `picture_to_surface` — the opcode interpreter.

Modelling conventions:

* A byte buffer is a `List ℕ`; reading a byte from raw memory is
  `getByte`, which masks with `% 256` (a `uint8` load).  The C code reads
  the packed pixel data through a *raw pointer with no bounds check*, so an
  out-of-range load in the model yields the `List.getD` default `0`,
  standing for whatever bytes happen to follow the buffer; theorems never
  depend on the value of such a load, only on the cursor position.
* Destination memory (`s->pixels`, the `tmp` band buffer) is a total map
  `ℕ → ℕ` from byte offsets to byte values, written with `memWrite`.
* Machine integers are `ℕ`/`ℤ` with explicit `% 2^w` where the code can
  wrap (`uint16` subtraction, `int8` casts).
* The host is little-endian, matching the `LITTLE_ENDIAN` branch of
  `copy_component_into_surface` and the in-memory layout of `uint16`
  stores performed by `unpack_bits<uint16>`.
-/

/-- Load one byte from raw memory at `p`.  Past the end of the buffer the
C code reads whatever memory follows; the model returns `0` there. -/
def getByte (src : List ℕ) (p : ℕ) : ℕ := src.getD p 0 % 256

/-- The C cast `(int8)b` applied to a byte value. -/
def byteAsI8 (b : ℕ) : ℤ :=
  if b % 256 < 128 then ((b % 256 : ℕ) : ℤ) else ((b % 256 : ℕ) : ℤ) - 256

/-- Bytes occupied by one output unit: `sizeof(T)` in `unpack_bits<T>` is
`1` for `uint8` and `2` for `uint16` (the only two instantiations). -/
def unitBytes (w : ℕ) : ℕ := if w = 1 then 1 else 2

/-- Read one output unit at `p`: a single byte for width 1, two
big-endian bytes (`(src[0] << 8) | src[1]`) otherwise. -/
def readUnit (w : ℕ) (src : List ℕ) (p : ℕ) : ℕ :=
  if w = 1 then getByte src p else getByte src p * 256 + getByte src (p + 1)

/-- The body of the "uncompressed run" branch of `unpack_bits`: read `k`
units one at a time, advancing the cursor per unit.  Returns the units in
input order together with the final cursor. -/
def readLits (w : ℕ) (src : List ℕ) : ℕ → ℕ → List ℕ × ℕ
  | p, 0 => ([], p)
  | p, k + 1 =>
      let r := readLits w src (p + unitBytes w) k
      (readUnit w src p :: r.1, r.2)

/-- The `while (src_count > 0)` loop of `unpack_bits`.  State: the
remaining prefix-declared count (`src_count : int`, may go negative) and
the source cursor.  Returns `(output units, final cursor, final count,
number of loop iterations)`. -/
def unpackLoop (w : ℕ) (src : List ℕ) (count : ℤ) (pos : ℕ) :
    List ℕ × ℕ × ℤ × ℕ :=
  if h : count ≤ 0 then ([], pos, count, 0)
  else
    let c := byteAsI8 (getByte src pos)
    if c < 0 then
      -- RLE compressed run
      let r := unpackLoop w src (count - 1 - unitBytes w) (pos + 1 + unitBytes w)
      (List.replicate (-c + 1).toNat (readUnit w src (pos + 1)) ++ r.1,
        r.2.1, r.2.2.1, r.2.2.2 + 1)
    else
      -- Uncompressed run
      let lr := readLits w src (pos + 1) (c + 1).toNat
      let r := unpackLoop w src (count - 1 - (c + 1).toNat * unitBytes w) lr.2
      (lr.1 ++ r.1, r.2.1, r.2.2.1, r.2.2.2 + 1)
termination_by count.toNat
decreasing_by
  · omega
  · have h1 : (0 : ℤ) ≤ ((byteAsI8 (getByte src pos) + 1).toNat : ℤ) * ((unitBytes w : ℕ) : ℤ) :=
      mul_nonneg (Int.natCast_nonneg _) (Int.natCast_nonneg _)
    omega

/-- `unpack_bits(src, row_bytes, dst)`: read the line-level length prefix
(16-bit big-endian when `row_bytes > 250`, one byte otherwise) and run the
unpacking loop.  Returns `(units, final cursor, final count, iterations)`. -/
def unpack_bits (w : ℕ) (src : List ℕ) (row_bytes : ℕ) (pos : ℕ) :
    List ℕ × ℕ × ℤ × ℕ :=
  if 250 < row_bytes then
    unpackLoop w src ((getByte src pos * 256 + getByte src (pos + 1) : ℕ) : ℤ) (pos + 2)
  else
    unpackLoop w src ((getByte src pos : ℕ) : ℤ) (pos + 1)

/-! ## Basic facts about the unpacking loop -/

theorem getByte_lt (src : List ℕ) (p : ℕ) : getByte src p < 256 :=
  Nat.mod_lt _ (by norm_num)

theorem byteAsI8_neg_of_high {src : List ℕ} {p : ℕ} (h : 128 ≤ getByte src p) :
    byteAsI8 (getByte src p) < 0 := by
  have hlt := getByte_lt src p
  unfold byteAsI8
  rw [Nat.mod_eq_of_lt hlt]
  split <;> omega

theorem byteAsI8_nonneg_of_low {src : List ℕ} {p : ℕ} (h : getByte src p < 128) :
    0 ≤ byteAsI8 (getByte src p) ∧ byteAsI8 (getByte src p) = (getByte src p : ℤ) := by
  have hlt := getByte_lt src p
  unfold byteAsI8
  rw [Nat.mod_eq_of_lt hlt]
  split <;> omega

theorem unitBytes_of_width {w : ℕ} (hw : w = 1 ∨ w = 2) : unitBytes w = w := by
  rcases hw with h | h <;> simp [unitBytes, h]

theorem readLits_spec (w : ℕ) (src : List ℕ) (k : ℕ) : ∀ (p : ℕ),
    readLits w src p k =
      ((List.range k).map (fun i => readUnit w src (p + i * unitBytes w)),
        p + k * unitBytes w) := by
  induction k with
  | zero => intro p; simp [readLits]
  | succ k ih =>
    intro p
    rw [readLits, ih (p + unitBytes w)]
    have harg : ∀ i : ℕ, p + unitBytes w + i * unitBytes w = p + (i + 1) * unitBytes w := by
      intro i; ring
    simp only [List.range_succ_eq_map, List.map_cons, List.map_map, Function.comp_def, harg,
      Nat.succ_eq_add_one]
    refine Prod.ext ?_ (by push_cast; ring)
    simp [Nat.succ_mul]

/-- The loop preserves `pos + count`, ends with a non-positive remaining
count, and runs at most `count` iterations. -/
theorem unpackLoop_spec (w : ℕ) (src : List ℕ) (count : ℤ) (pos : ℕ) :
    ((unpackLoop w src count pos).2.1 : ℤ) + (unpackLoop w src count pos).2.2.1 =
        pos + count ∧
      (unpackLoop w src count pos).2.2.1 ≤ 0 ∧
      (unpackLoop w src count pos).2.2.2 ≤ count.toNat := by
  have main : ∀ (n : ℕ) (cnt : ℤ) (p : ℕ), cnt.toNat ≤ n →
      ((unpackLoop w src cnt p).2.1 : ℤ) + (unpackLoop w src cnt p).2.2.1 = p + cnt ∧
        (unpackLoop w src cnt p).2.2.1 ≤ 0 ∧
        (unpackLoop w src cnt p).2.2.2 ≤ cnt.toNat := by
    intro n
    induction n with
    | zero =>
      intro cnt p hn
      have hc : cnt ≤ 0 := by omega
      rw [unpackLoop, dif_pos hc]
      exact ⟨by simp, hc, by simp⟩
    | succ n ih =>
      intro cnt p hn
      by_cases hc : cnt ≤ 0
      · rw [unpackLoop, dif_pos hc]
        exact ⟨by simp, hc, by simp⟩
      · rw [unpackLoop, dif_neg hc]
        by_cases hneg : byteAsI8 (getByte src p) < 0
        · obtain ⟨h1, h2, h3⟩ := ih (cnt - 1 - unitBytes w) (p + 1 + unitBytes w) (by omega)
          simp only [if_pos hneg]
          refine ⟨?_, h2, ?_⟩
          · push_cast at h1 ⊢
            omega
          · omega
        · have hnn : (0 : ℤ) ≤ ((byteAsI8 (getByte src p) + 1).toNat : ℤ) * ((unitBytes w : ℕ) : ℤ) :=
            mul_nonneg (Int.natCast_nonneg _) (Int.natCast_nonneg _)
          obtain ⟨h1, h2, h3⟩ :=
            ih (cnt - 1 - (byteAsI8 (getByte src p) + 1).toNat * unitBytes w)
              (readLits w src (p + 1) (byteAsI8 (getByte src p) + 1).toNat).2 (by omega)
          simp only [if_neg hneg, readLits_spec] at h1 h2 h3 ⊢
          refine ⟨?_, h2, ?_⟩
          · push_cast at h1 hnn ⊢
            omega
          · omega
  exact main count.toNat count pos le_rfl

/-! ## Claim theorems about the scan-line unpacker -/

/-- C10: the scan-line unpacker terminates on every input.  Each loop
iteration consumes at least the control byte, so the loop runs at most
`src_count` (the prefix-declared count) iterations, and it exits exactly
when the remaining count is no longer positive — the final remaining
count is `≤ 0`, including the negative remainders produced when a run's
data bytes overshoot the declared count. -/
theorem unpack_bits_loop_terminates (w : ℕ) (src : List ℕ) (count : ℤ) (pos : ℕ) :
    (unpackLoop w src count pos).2.2.2 ≤ count.toNat ∧
      (unpackLoop w src count pos).2.2.1 ≤ 0 :=
  ⟨(unpackLoop_spec w src count pos).2.2, (unpackLoop_spec w src count pos).2.1⟩

/-- C1 (amended): `unpack_bits` performs no bounds checks at all.  Its
final cursor position is the start position plus the prefix width plus
the prefix-declared byte count minus the (non-positive) final remainder,
regardless of how many bytes the buffer actually holds; in particular it
always consumes at least the declared count, moving the cursor past the
buffer end on truncated input, and it returns normally instead of
failing with a `TruncatedInput` error (no such error exists in the code). -/
theorem unpack_bits_consumes_declared_count (w : ℕ) (src : List ℕ) (row_bytes pos : ℕ) :
    ((unpack_bits w src row_bytes pos).2.1 : ℤ) + (unpack_bits w src row_bytes pos).2.2.1 =
        (pos : ℤ) + (if 250 < row_bytes then 2 + (getByte src pos * 256 + getByte src (pos + 1) : ℕ)
          else 1 + (getByte src pos : ℕ)) ∧
      (unpack_bits w src row_bytes pos).2.2.1 ≤ 0 := by
  unfold unpack_bits
  by_cases h : 250 < row_bytes
  · simp only [if_pos h]
    obtain ⟨h1, h2, _⟩ := unpackLoop_spec w src
      ((getByte src pos * 256 + getByte src (pos + 1) : ℕ) : ℤ) (pos + 2)
    refine ⟨?_, h2⟩
    push_cast at h1 ⊢
    omega
  · simp only [if_neg h]
    obtain ⟨h1, h2, _⟩ := unpackLoop_spec w src ((getByte src pos : ℕ) : ℤ) (pos + 1)
    refine ⟨?_, h2⟩
    push_cast at h1 ⊢
    omega

/-- C1 (counterexample): the buffer `[5]` is a scan line whose one-byte
length prefix declares 5 packed bytes, but 0 packed bytes are present.
The claim says such a decode must abort with `TruncatedInput` and never
read outside the buffer; instead `unpack_bits` runs to completion,
returns an output line, and leaves its cursor at position 7 — six bytes
past the end of the 1-byte buffer, every one of them read from memory
the buffer does not own. -/
theorem unpack_bits_truncated_reads_past_end :
    (unpack_bits 1 [5] 10 0).2.1 = 7 ∧ ([5] : List ℕ).length = 1 ∧
      (unpack_bits 1 [5] 10 0).1 = [0, 0, 0] := by
  have h : unpack_bits 1 [5] 10 0 = ([0, 0, 0], 7, -1, 3) := by
    simp [unpack_bits, unpackLoop, getByte, byteAsI8, readLits, readUnit, unitBytes]
  rw [h]
  exact ⟨rfl, rfl, rfl⟩

/-- C5: a repeat run.  When the remaining count is positive and the
control byte `c` read at the cursor is negative (byte value `≥ 128`),
the unpacker emits exactly `-c + 1` copies of the single following input
unit (one byte for width 1, two big-endian bytes assembled high byte
first for width 2), consumes exactly `1 + w` source bytes for the run
(the control byte plus one unit), and continues with the remaining
prefix-declared count decremented by exactly those `1 + w` bytes. -/
theorem repeat_run_step (w : ℕ) (src : List ℕ) (count : ℤ) (pos : ℕ)
    (hw : w = 1 ∨ w = 2) (hcount : 0 < count) (hb : 128 ≤ getByte src pos) :
    unpackLoop w src count pos =
      (List.replicate (-(byteAsI8 (getByte src pos)) + 1).toNat (readUnit w src (pos + 1)) ++
          (unpackLoop w src (count - (1 + w)) (pos + (1 + w))).1,
        (unpackLoop w src (count - (1 + w)) (pos + (1 + w))).2.1,
        (unpackLoop w src (count - (1 + w)) (pos + (1 + w))).2.2.1,
        (unpackLoop w src (count - (1 + w)) (pos + (1 + w))).2.2.2 + 1) := by
  have hub : unitBytes w = w := unitBytes_of_width hw
  have hneg : byteAsI8 (getByte src pos) < 0 := byteAsI8_neg_of_high hb
  have harg : count - 1 - (w : ℤ) = count - (1 + w) := by ring
  have harg2 : pos + 1 + w = pos + (1 + w) := by ring
  rw [unpackLoop, dif_neg (by omega)]
  simp only [if_pos hneg, hub, harg, harg2]

/-- C5 witness: at `src = [254, 7]`, `count = 3`, width 1: the control
byte is `254`, i.e. `c = -2`, so 3 copies of the unit `7` are emitted
and the continuation runs with count `3 - 2 = 1` at cursor 2. -/
theorem repeat_run_step_witness :
    (0 : ℤ) < 3 ∧ 128 ≤ getByte [254, 7] 0 ∧
      unpackLoop 1 [254, 7] 3 0 =
        (List.replicate 3 7 ++ (unpackLoop 1 [254, 7] 1 2).1,
          (unpackLoop 1 [254, 7] 1 2).2.1,
          (unpackLoop 1 [254, 7] 1 2).2.2.1,
          (unpackLoop 1 [254, 7] 1 2).2.2.2 + 1) := by
  refine ⟨by norm_num, by decide, ?_⟩
  have h := repeat_run_step 1 [254, 7] 3 0 (Or.inl rfl) (by norm_num) (by decide)
  have hb : getByte [254, 7] 0 = 254 := by decide
  have hu : readUnit 1 [254, 7] (0 + 1) = 7 := by decide
  rw [hb, hu] at h
  norm_num [byteAsI8] at h
  convert h using 2

/-- C6: a literal run.  When the remaining count is positive and the
control byte `c` read at the cursor is non-negative (byte value `< 128`),
the unpacker emits exactly `c + 1` output units, each read individually
from the input in input order (one byte per unit for width 1, two
big-endian bytes per unit for width 2), consumes exactly
`1 + (c+1) * w` source bytes for the run, and continues with the
remaining prefix-declared count decremented per unit consumed, i.e. by
those same `1 + (c+1) * w` bytes in total. -/
theorem literal_run_step (w : ℕ) (src : List ℕ) (count : ℤ) (pos : ℕ)
    (hw : w = 1 ∨ w = 2) (hcount : 0 < count) (hb : getByte src pos < 128) :
    unpackLoop w src count pos =
      ((List.range (byteAsI8 (getByte src pos) + 1).toNat).map
            (fun i => readUnit w src (pos + 1 + i * w)) ++
          (unpackLoop w src (count - (1 + (byteAsI8 (getByte src pos) + 1).toNat * w))
              (pos + 1 + (byteAsI8 (getByte src pos) + 1).toNat * w)).1,
        (unpackLoop w src (count - (1 + (byteAsI8 (getByte src pos) + 1).toNat * w))
            (pos + 1 + (byteAsI8 (getByte src pos) + 1).toNat * w)).2.1,
        (unpackLoop w src (count - (1 + (byteAsI8 (getByte src pos) + 1).toNat * w))
            (pos + 1 + (byteAsI8 (getByte src pos) + 1).toNat * w)).2.2.1,
        (unpackLoop w src (count - (1 + (byteAsI8 (getByte src pos) + 1).toNat * w))
            (pos + 1 + (byteAsI8 (getByte src pos) + 1).toNat * w)).2.2.2 + 1) := by
  have hub : unitBytes w = w := unitBytes_of_width hw
  obtain ⟨hge, _⟩ := byteAsI8_nonneg_of_low hb
  have harg : count - 1 - (((byteAsI8 (getByte src pos) + 1).toNat : ℤ) * (w : ℤ)) =
      count - (1 + ((byteAsI8 (getByte src pos) + 1).toNat : ℤ) * (w : ℤ)) := by
    ring
  rw [unpackLoop, dif_neg (by omega)]
  simp only [if_neg (by omega : ¬ byteAsI8 (getByte src pos) < 0), readLits_spec, hub,
    Nat.cast_mul, harg]

/-- C6 witness: at `src = [1, 9, 8]`, `count = 3`, width 1: the control
byte is `1`, so 2 literal units `9, 8` are emitted in input order, 3
source bytes are consumed for the run, and the continuation runs with
count `3 - 3 = 0` at cursor 3. -/
theorem literal_run_step_witness :
    (0 : ℤ) < 3 ∧ getByte [1, 9, 8] 0 < 128 ∧
      unpackLoop 1 [1, 9, 8] 3 0 =
        ([9, 8] ++ (unpackLoop 1 [1, 9, 8] 0 3).1,
          (unpackLoop 1 [1, 9, 8] 0 3).2.1,
          (unpackLoop 1 [1, 9, 8] 0 3).2.2.1,
          (unpackLoop 1 [1, 9, 8] 0 3).2.2.2 + 1) := by
  refine ⟨by norm_num, by decide, ?_⟩
  have h := literal_run_step 1 [1, 9, 8] 3 0 (Or.inl rfl) (by norm_num) (by decide)
  have hb : getByte [1, 9, 8] 0 = 1 := by decide
  rw [hb] at h
  norm_num [byteAsI8] at h
  convert h using 2

/-! ## Reference PackBits encoder (for the round-trip property C9) -/

/-- One unit encoded by the reference PackBits encoder: the unit's bytes,
high byte first (one byte for width 1, two for width 2). -/
def encUnit (w u : ℕ) : List ℕ := if w = 1 then [u] else [u / 256, u % 256]

/-- A sequence of units, each encoded by `encUnit`. -/
def encUnits (w : ℕ) : List ℕ → List ℕ
  | [] => []
  | u :: us => encUnit w u ++ encUnits w us

/-- Reference PackBits encoder for the payload of one scan line: the line
is emitted as literal runs of at most 128 units each (control byte
`k - 1` followed by the `k` units' bytes) — a valid PackBits encoding of
any uncompressed line. -/
def packChunks (w : ℕ) : List ℕ → List ℕ
  | [] => []
  | u :: us =>
      min 127 us.length :: (encUnits w (u :: us.take 127) ++ packChunks w (us.drop 127))
termination_by l => l.length
decreasing_by simp only [List.length_drop, List.length_cons]; omega

/-- Reference encoder for a full scan line: the payload preceded by the
line-level length prefix (16-bit big-endian iff `row_bytes > 250`,
a single byte otherwise), exactly the prefix `unpack_bits` reads. -/
def pack_scan_line (w row_bytes : ℕ) (us : List ℕ) : List ℕ :=
  if 250 < row_bytes then
    (packChunks w us).length / 256 :: (packChunks w us).length % 256 :: packChunks w us
  else
    (packChunks w us).length :: packChunks w us

theorem encUnit_length {w : ℕ} (hw : w = 1 ∨ w = 2) (u : ℕ) :
    (encUnit w u).length = w := by
  rcases hw with h | h <;> simp [encUnit, h]

theorem encUnits_length {w : ℕ} (hw : w = 1 ∨ w = 2) :
    ∀ cs : List ℕ, (encUnits w cs).length = cs.length * w := by
  intro cs
  induction cs with
  | nil => simp [encUnits]
  | cons u us ih => simp [encUnits, encUnit_length hw, ih]; ring

theorem getByte_append (pre l : List ℕ) (i : ℕ) :
    getByte (pre ++ l) (pre.length + i) = getByte l i := by
  unfold getByte
  rw [List.getD_append_right _ _ _ _ (by omega)]
  simp

/-- Decoding the literal bytes produced by the reference encoder
recovers the original units. -/
theorem readLits_encoded {w : ℕ} (hw : w = 1 ∨ w = 2) :
    ∀ (cs pre post : List ℕ), (∀ u ∈ cs, u < 256 ^ w) →
      readLits w (pre ++ (encUnits w cs ++ post)) pre.length cs.length =
        (cs, pre.length + cs.length * w) := by
  intro cs
  induction cs with
  | nil => intro pre post _; simp [readLits]
  | cons u us ih =>
    intro pre post hb
    have hu : u < 256 ^ w := hb u (by simp)
    have hub : unitBytes w = w := unitBytes_of_width hw
    have hread : readUnit w (pre ++ (encUnits w (u :: us) ++ post)) pre.length = u := by
      rcases hw with h1 | h2
      · subst h1
        have hu1 : u < 256 := by simpa using hu
        have h0 := getByte_append pre (encUnits 1 (u :: us) ++ post) 0
        rw [Nat.add_zero] at h0
        have e0 : getByte (encUnits 1 (u :: us) ++ post) 0 = u := by
          simp [encUnits, encUnit, getByte]
          omega
        unfold readUnit
        rw [if_pos rfl, h0, e0]
      · subst h2
        have hu2 : u < 65536 := by simpa using hu
        have hexp : encUnits 2 (u :: us) ++ post =
            u / 256 :: u % 256 :: (encUnits 2 us ++ post) := by
          simp [encUnits, encUnit]
        have h0 := getByte_append pre (encUnits 2 (u :: us) ++ post) 0
        rw [Nat.add_zero] at h0
        have h1 := getByte_append pre (encUnits 2 (u :: us) ++ post) 1
        have e0 : getByte (encUnits 2 (u :: us) ++ post) 0 = u / 256 := by
          rw [hexp]
          simp [getByte]
          omega
        have e1 : getByte (encUnits 2 (u :: us) ++ post) 1 = u % 256 := by
          rw [hexp]
          simp [getByte]
        unfold readUnit
        rw [if_neg (by norm_num : ¬ (2 : ℕ) = 1), h0, h1, e0, e1]
        omega
    have hassoc : pre ++ (encUnits w (u :: us) ++ post) =
        (pre ++ encUnit w u) ++ (encUnits w us ++ post) := by
      simp [encUnits, List.append_assoc]
    have hlen : (pre ++ encUnit w u).length = pre.length + w := by
      simp [encUnit_length hw]
    have ihres := ih (pre ++ encUnit w u) post (fun v hv => hb v (by simp [hv]))
    rw [hlen] at ihres
    simp only [List.length_cons]
    rw [readLits]
    simp only [hub]
    rw [hassoc] at hread ⊢
    rw [ihres, hread]
    refine Prod.ext rfl ?_
    simp only
    ring

/-- Length of the reference payload: `w` bytes per unit plus one control
byte per chunk of (at most) 128 units. -/
theorem packChunks_length {w : ℕ} (hw : w = 1 ∨ w = 2) (us : List ℕ) :
    (packChunks w us).length = us.length * w + (us.length + 127) / 128 := by
  have main : ∀ (n : ℕ) (l : List ℕ), l.length ≤ n →
      (packChunks w l).length = l.length * w + (l.length + 127) / 128 := by
    intro n
    induction n with
    | zero =>
      intro l h
      match l with
      | [] => simp [packChunks]
      | x :: xs => simp at h
    | succ n ih =>
      intro l h
      match l with
      | [] => simp [packChunks]
      | u :: us' =>
        rw [packChunks]
        have hrec := ih (us'.drop 127)
          (by simp only [List.length_drop]; simp only [List.length_cons] at h; omega)
        simp only [List.length_cons, List.length_append, encUnits_length hw, hrec,
          List.length_drop, List.length_take]
        rcases hw with rfl | rfl <;> omega
  exact main us.length us le_rfl

/-- Decoding a reference-encoded payload placed after `pre` and before
`post` reproduces the original units, consumes exactly the payload, and
ends with remaining count 0. -/
theorem unpack_payload {w : ℕ} (hw : w = 1 ∨ w = 2) :
    ∀ (N : ℕ) (us pre post : List ℕ), us.length ≤ N → (∀ u ∈ us, u < 256 ^ w) →
      ∃ n, unpackLoop w (pre ++ (packChunks w us ++ post))
          (((packChunks w us).length : ℕ) : ℤ) pre.length =
        (us, pre.length + (packChunks w us).length, 0, n) := by
  intro N
  induction N with
  | zero =>
    intro us pre post hN _
    match us with
    | [] =>
      refine ⟨0, ?_⟩
      rw [packChunks, unpackLoop, dif_pos (by norm_num)]
      simp
    | x :: xs => simp at hN
  | succ N ih =>
    intro us pre post hN hb
    match us with
    | [] =>
      refine ⟨0, ?_⟩
      rw [packChunks, unpackLoop, dif_pos (by norm_num)]
      simp
    | u :: us' =>
      have hub : unitBytes w = w := unitBytes_of_width hw
      rw [packChunks]
      set k := min 127 us'.length with hk
      set chunk : List ℕ := u :: us'.take 127 with hchunk
      set enc := encUnits w chunk with henc
      set rest := packChunks w (us'.drop 127) with hrest
      have hk127 : k ≤ 127 := Nat.min_le_left _ _
      have hchunklen : chunk.length = k + 1 := by
        rw [hchunk]
        simp [List.length_take, hk]
      have henclen : enc.length = (k + 1) * w := by
        rw [henc, encUnits_length hw, hchunklen]
      -- the control byte read at the cursor is the chunk length minus one
      have hgb0 : getByte (pre ++ ((k :: (enc ++ rest)) ++ post)) pre.length = k := by
        have h0 := getByte_append pre ((k :: (enc ++ rest)) ++ post) 0
        rw [Nat.add_zero] at h0
        rw [h0]
        simp [getByte]
        omega
      have hc : byteAsI8 k = (k : ℤ) := by
        unfold byteAsI8
        rw [Nat.mod_eq_of_lt (by omega)]
        rw [if_pos (by omega)]
      have ht : ((k : ℤ) + 1).toNat = k + 1 := by omega
      obtain ⟨n', ihres⟩ := ih (us'.drop 127) (pre ++ k :: enc) post
        (by have h2 : us'.length + 1 ≤ N + 1 := by simpa using hN
            simp only [List.length_drop]
            omega)
        (fun v hv => hb v (List.mem_cons_of_mem _ (List.drop_subset _ _ hv)))
      rw [← hrest] at ihres
      refine ⟨n' + 1, ?_⟩
      rw [unpackLoop, dif_neg (by simp only [List.length_cons]; push_cast; omega)]
      simp only [hgb0, hc, ht, hub, if_neg (by omega : ¬ (k : ℤ) < 0)]
      have habuf : pre ++ ((k :: (enc ++ rest)) ++ post) =
          (pre ++ [k]) ++ (enc ++ (rest ++ post)) := by
        simp [List.append_assoc]
      have hbchunk : ∀ v ∈ chunk, v < 256 ^ w := by
        intro v hv
        rw [hchunk] at hv
        rcases List.mem_cons.mp hv with h | h
        · exact h ▸ hb u (by simp)
        · exact hb v (List.mem_cons_of_mem _ (List.take_subset _ _ h))
      have hlits := readLits_encoded hw chunk (pre ++ [k]) (rest ++ post) hbchunk
      rw [hchunklen] at hlits
      have hplen1 : (pre ++ [k]).length = pre.length + 1 := by simp
      rw [hplen1] at hlits
      rw [habuf, hlits]
      have hC : (((k :: (enc ++ rest)).length : ℕ) : ℤ) - 1 - ((k + 1 : ℕ) : ℤ) * (w : ℤ) =
          ((rest.length : ℕ) : ℤ) := by
        simp only [List.length_cons, List.length_append, henclen]
        push_cast
        ring
      have habuf2 : (pre ++ [k]) ++ (enc ++ (rest ++ post)) =
          (pre ++ k :: enc) ++ (rest ++ post) := by
        simp [List.append_assoc]
      have hpos2 : pre.length + 1 + (k + 1) * w = (pre ++ k :: enc).length := by
        simp [henclen]
        omega
      rw [hC, habuf2, hpos2, ihres]
      simp only [Prod.mk.injEq]
      refine ⟨?_, ?_, trivial⟩
      · simp [hchunk, List.take_append_drop]
      · simp only [List.length_cons, List.length_append]
        omega

/-- C9: round-trip.  Packing an uncompressed scan line with the reference
PackBits encoder — including the line-level length prefix, 16-bit
big-endian when `row_bytes > 250` and a single byte otherwise — and then
unpacking the result with this decoder reproduces the original scan line
exactly, consuming exactly the encoded bytes and ending with remaining
count 0, for unit widths 1 and 2.  (The side condition bounds the payload
length, `us.length * w` data bytes plus one control byte per 128 units,
by what the prefix field can represent.) -/
theorem pack_unpack_round_trip (w row_bytes : ℕ) (us : List ℕ)
    (hw : w = 1 ∨ w = 2) (hb : ∀ u ∈ us, u < 256 ^ w)
    (hfit : us.length * w + (us.length + 127) / 128 ≤
      if 250 < row_bytes then 65535 else 255) :
    ∃ n, unpack_bits w (pack_scan_line w row_bytes us) row_bytes 0 =
      (us, (pack_scan_line w row_bytes us).length, 0, n) := by
  have hlen := packChunks_length hw us
  by_cases h : 250 < row_bytes
  · rw [if_pos h] at hfit
    have hL : (packChunks w us).length ≤ 65535 := by omega
    obtain ⟨n, hres⟩ := unpack_payload hw us.length us
      [(packChunks w us).length / 256, (packChunks w us).length % 256] [] le_rfl hb
    refine ⟨n, ?_⟩
    have hbuf : pack_scan_line w row_bytes us =
        [(packChunks w us).length / 256, (packChunks w us).length % 256] ++
          (packChunks w us ++ []) := by
      simp [pack_scan_line, if_pos h]
    have hg0 : getByte ([(packChunks w us).length / 256, (packChunks w us).length % 256] ++
        (packChunks w us ++ [])) 0 = (packChunks w us).length / 256 := by
      simp [getByte]
      omega
    have hg1 : getByte ([(packChunks w us).length / 256, (packChunks w us).length % 256] ++
        (packChunks w us ++ [])) 1 = (packChunks w us).length % 256 := by
      simp [getByte]
    have hcount : ((packChunks w us).length / 256 * 256 + (packChunks w us).length % 256 : ℕ) =
        (packChunks w us).length := by omega
    have hlenr : (([(packChunks w us).length / 256, (packChunks w us).length % 256] : List ℕ) ++
        (packChunks w us ++ [])).length =
        ([(packChunks w us).length / 256, (packChunks w us).length % 256] : List ℕ).length +
          (packChunks w us).length := by
      simp
      omega
    rw [hbuf, unpack_bits, if_pos h, hg0, hg1, hcount, hlenr]
    exact hres
  · rw [if_neg h] at hfit
    have hL : (packChunks w us).length ≤ 255 := by omega
    obtain ⟨n, hres⟩ := unpack_payload hw us.length us
      [(packChunks w us).length] [] le_rfl hb
    refine ⟨n, ?_⟩
    have hbuf : pack_scan_line w row_bytes us =
        [(packChunks w us).length] ++ (packChunks w us ++ []) := by
      simp [pack_scan_line, if_neg h]
    have hg0 : getByte ([(packChunks w us).length] ++ (packChunks w us ++ [])) 0 =
        (packChunks w us).length := by
      simp [getByte]
      omega
    have hlenr : (([(packChunks w us).length] : List ℕ) ++ (packChunks w us ++ [])).length =
        ([(packChunks w us).length] : List ℕ).length + (packChunks w us).length := by
      simp
      omega
    rw [hbuf, unpack_bits, if_neg h, hg0, hlenr]
    exact hres

/-- C9 witness: the two-unit 16-bit line `[258, 5]` with `row_bytes = 4`
(single-byte prefix) round-trips exactly. -/
theorem pack_unpack_round_trip_witness :
    (∀ u ∈ [258, 5], u < 256 ^ 2) ∧
      ([258, 5].length * 2 + ([258, 5].length + 127) / 128 ≤
        if 250 < 4 then 65535 else 255) ∧
      ∃ n, unpack_bits 2 (pack_scan_line 2 4 [258, 5]) 4 0 =
        ([258, 5], (pack_scan_line 2 4 [258, 5]).length, 0, n) :=
  ⟨by decide, by decide,
    pack_unpack_round_trip 2 4 [258, 5] (Or.inr rfl) (by decide) (by decide)⟩

/-! ## Destination memory and the depth-specific decompressors -/

/-- Write one byte into destination memory (a total map from byte
offsets to byte values). -/
def memWrite (mem : ℕ → ℕ) (a v : ℕ) : ℕ → ℕ := fun i => if i = a then v % 256 else mem i

/-- Write a list of output units at `a`: one byte per unit for width 1;
for width 2 the in-memory layout of a `uint16` store on the
little-endian host, low byte first. -/
def writeUnits (w : ℕ) : List ℕ → (ℕ → ℕ) → ℕ → (ℕ → ℕ)
  | [], mem, _ => mem
  | u :: us, mem, a =>
      if w = 1 then writeUnits w us (memWrite mem a u) (a + 1)
      else writeUnits w us (memWrite (memWrite mem a u) (a + 1) (u / 256)) (a + 2)

/-- `uncompress_rle8`: one `unpack_bits<uint8>` call per scan line, each
line written `dst_pitch` bytes after the previous one, the source cursor
resuming where the previous line's unpacking left it. -/
def uncompress_rle8 (src : List ℕ) (row_bytes dst_pitch : ℕ) :
    ℕ → ℕ → (ℕ → ℕ) → ℕ → (ℕ → ℕ)
  | 0, _, mem, _ => mem
  | h + 1, sp, mem, dst =>
      uncompress_rle8 src row_bytes dst_pitch h (unpack_bits 1 src row_bytes sp).2.1
        (writeUnits 1 (unpack_bits 1 src row_bytes sp).1 mem dst) (dst + dst_pitch)

/-- `uncompress_rle16`: as `uncompress_rle8` but with 16-bit output
units (`unpack_bits<uint16>`). -/
def uncompress_rle16 (src : List ℕ) (row_bytes dst_pitch : ℕ) :
    ℕ → ℕ → (ℕ → ℕ) → ℕ → (ℕ → ℕ)
  | 0, _, mem, _ => mem
  | h + 1, sp, mem, dst =>
      uncompress_rle16 src row_bytes dst_pitch h (unpack_bits 2 src row_bytes sp).2.1
        (writeUnits 2 (unpack_bits 2 src row_bytes sp).1 mem dst) (dst + dst_pitch)

/-- The loop of `copy_component_into_surface`: copy `count` band-buffer
bytes into every fourth destination byte.  The band buffer is the list
of bytes `unpack_bits` produced; positions it never wrote are `malloc`
garbage, modelled as 0. -/
def copy_comp_loop (tmp : List ℕ) : ℕ → ℕ → (ℕ → ℕ) → ℕ → (ℕ → ℕ)
  | 0, _, mem, _ => mem
  | c + 1, sp, mem, dp => copy_comp_loop tmp c (sp + 1) (memWrite mem dp (tmp.getD sp 0)) (dp + 4)

/-- `copy_component_into_surface` on a little-endian host: component
`comp` is written at byte offset `2 - comp` of each 4-byte pixel. -/
def copy_component_into_surface (tmp : List ℕ) (sp : ℕ) (mem : ℕ → ℕ)
    (dp count comp : ℕ) : ℕ → ℕ :=
  copy_comp_loop tmp count sp mem (dp + (2 - comp))

/-- The row loop of `uncompress_rle32`: each packed line unpacks into the
band buffer (`width` red bytes, then `width` green, then `width` blue,
`width = row_bytes / 4`), which is scattered into the 4-byte pixels of
the destination row. -/
def uncompress_rle32_rows (src : List ℕ) (row_bytes dst_pitch : ℕ) :
    ℕ → ℕ → (ℕ → ℕ) → ℕ → (ℕ → ℕ)
  | 0, _, mem, _ => mem
  | h + 1, sp, mem, dst =>
      uncompress_rle32_rows src row_bytes dst_pitch h (unpack_bits 1 src row_bytes sp).2.1
        (copy_component_into_surface (unpack_bits 1 src row_bytes sp).1 (row_bytes / 4 * 2)
          (copy_component_into_surface (unpack_bits 1 src row_bytes sp).1 (row_bytes / 4)
            (copy_component_into_surface (unpack_bits 1 src row_bytes sp).1 0
              mem dst (row_bytes / 4) 0)
            dst (row_bytes / 4) 1)
          dst (row_bytes / 4) 2)
        (dst + dst_pitch)

/-- `uncompress_rle32`: first `malloc` the temporary band buffer
(`mallocOk` models whether the allocation succeeds); on failure the
function returns at once, having decoded nothing and signalled nothing.
Result: (destination memory, buffer was allocated, buffer was freed). -/
def uncompress_rle32 (mallocOk : Bool) (src : List ℕ) (row_bytes : ℕ)
    (mem : ℕ → ℕ) (dst dst_pitch height : ℕ) : (ℕ → ℕ) × Bool × Bool :=
  if mallocOk then
    (uncompress_rle32_rows src row_bytes dst_pitch height 0 mem dst, true, true)
  else (mem, false, false)

/-- `memcpy(dst, src, n)` into destination memory starting at offset 0. -/
def memcpyMem (mem : ℕ → ℕ) (src : List ℕ) (n : ℕ) : ℕ → ℕ :=
  fun i => if i < n then getByte src i else mem i

/-- Modelled from the spec: `byte_swapping.h` is not among the source
files.  Per the specification, the pack-type-1 ("no packing") path
byte-swaps every 2-byte (depth 16) or 4-byte (depth 32) unit in place to
convert the format's stored byte order to host order.
`byte_swap_memory mem u n` reverses the bytes of each of the first `n`
`u`-byte units. -/
def byte_swap_memory (mem : ℕ → ℕ) (u n : ℕ) : ℕ → ℕ :=
  fun i => if i < n * u then mem (i / u * u + (u - 1 - i % u)) else mem i

/-- `uncompress_picture`: the umbrella decompression dispatch.  `none`
models the `fprintf(stderr, "Unimplemented packing type ...")` followed
by `exit(1)` of the default case — a fatal unsupported-format error. -/
def uncompress_picture (mallocOk : Bool) (src : List ℕ) (row_bytes : ℕ)
    (mem : ℕ → ℕ) (dst_pitch depth height pack_type : ℕ) : Option (ℕ → ℕ) :=
  if row_bytes < 8 then
    some (memcpyMem mem src (row_bytes * height))
  else if depth = 8 then
    some (uncompress_rle8 src row_bytes dst_pitch height 0 mem 0)
  else
    let pt := if pack_type = 0 then
        (if depth = 16 then 3 else if depth = 32 then 4 else pack_type)
      else pack_type
    if pt = 1 then
      some (if depth = 16 then
          byte_swap_memory (memcpyMem mem src (row_bytes * height)) 2 (dst_pitch * height / 2)
        else if depth = 32 then
          byte_swap_memory (memcpyMem mem src (row_bytes * height)) 4 (dst_pitch * height / 4)
        else memcpyMem mem src (row_bytes * height))
    else if pt = 3 then
      some (uncompress_rle16 src row_bytes dst_pitch height 0 mem 0)
    else if pt = 4 then
      some ((uncompress_rle32 mallocOk src row_bytes mem 0 dst_pitch height).1)
    else none

/-- The dispatch policy exactly as claim C4 words it, written as a
separate definition to compare with `uncompress_picture`: below the
8-byte `rowBytes` threshold copy `rowBytes * height` bytes verbatim;
else for depth 8 always the 8-bit run-length path regardless of pack
type; else default pack type 0 to 3 (depth 16) or 4 (depth 32), then
dispatch: 1 = verbatim copy plus in-place byte swap of every 2-byte
(depth 16) or 4-byte (depth 32) unit, 3 = 16-bit chunked run-length,
4 = 32-bit planar run-length, anything else = fatal unsupported-format
error. -/
def dispatch_spec (mallocOk : Bool) (src : List ℕ) (row_bytes : ℕ)
    (mem : ℕ → ℕ) (dst_pitch depth height pack_type : ℕ) : Option (ℕ → ℕ) :=
  if row_bytes < 8 then
    some (memcpyMem mem src (row_bytes * height))
  else if depth = 8 then
    some (uncompress_rle8 src row_bytes dst_pitch height 0 mem 0)
  else
    match (if pack_type = 0 then
        (if depth = 16 then 3 else if depth = 32 then 4 else 0)
      else pack_type) with
    | 1 =>
      some (if depth = 16 then
          byte_swap_memory (memcpyMem mem src (row_bytes * height)) 2 (dst_pitch * height / 2)
        else if depth = 32 then
          byte_swap_memory (memcpyMem mem src (row_bytes * height)) 4 (dst_pitch * height / 4)
        else memcpyMem mem src (row_bytes * height))
    | 3 => some (uncompress_rle16 src row_bytes dst_pitch height 0 mem 0)
    | 4 => some ((uncompress_rle32 mallocOk src row_bytes mem 0 dst_pitch height).1)
    | _ => none

/-- C4: the umbrella decompression dispatch of `uncompress_picture`
behaves exactly as the specification's case analysis (`dispatch_spec`):
verbatim copy when `rowBytes < 8`; the 8-bit run-length path whenever
`depth = 8` regardless of pack type; otherwise pack type 0 is first
defaulted to 3 (depth 16) or 4 (depth 32), pack type 1 copies verbatim
and byte-swaps 2- or 4-byte units in place, 3 takes the 16-bit chunked
path, 4 the 32-bit planar path, and anything else is a fatal
unsupported-format error. -/
theorem uncompress_picture_eq_dispatch_spec (mallocOk : Bool) (src : List ℕ)
    (row_bytes : ℕ) (mem : ℕ → ℕ) (dst_pitch depth height pack_type : ℕ) :
    uncompress_picture mallocOk src row_bytes mem dst_pitch depth height pack_type =
      dispatch_spec mallocOk src row_bytes mem dst_pitch depth height pack_type := by
  unfold uncompress_picture dispatch_spec
  by_cases hr : row_bytes < 8
  · simp [hr]
  by_cases hd : depth = 8
  · simp [hr, hd]
  simp only [if_neg hr, if_neg hd]
  by_cases hp0 : pack_type = 0
  · subst hp0
    by_cases h16 : depth = 16
    · simp [h16]
    by_cases h32 : depth = 32
    · simp [h16, h32]
    · simp [h16, h32]
  · simp only [if_neg hp0]
    rcases pack_type with _ | _ | _ | _ | _ | pt
    · simp
    · simp
    · simp
    · simp
    · simp
    · rw [if_neg (by omega), if_neg (by omega), if_neg (by omega)]
      rfl

/-- C3 (amended): when allocation of the temporary band buffer fails,
`uncompress_rle32` returns immediately — the destination memory is
untouched and no error is signalled (and there is nothing to free); when
the allocation succeeds, the buffer is freed on the one remaining exit
path, i.e. the buffer is freed exactly when it was allocated.  The
claim's further assertion that the decode as a whole then fails is
refuted by the counterexample: `picture_to_surface` still returns the
allocated surface with its pixel buffer undecoded. -/
theorem rle32_malloc_failure_is_silent :
    (∀ (src : List ℕ) (row_bytes : ℕ) (mem : ℕ → ℕ) (dst dst_pitch height : ℕ),
        uncompress_rle32 false src row_bytes mem dst dst_pitch height = (mem, false, false)) ∧
      ∀ (mOk : Bool) (src : List ℕ) (row_bytes : ℕ) (mem : ℕ → ℕ) (dst dst_pitch height : ℕ),
        (uncompress_rle32 mOk src row_bytes mem dst dst_pitch height).2.2 =
          (uncompress_rle32 mOk src row_bytes mem dst dst_pitch height).2.1 := by
  constructor
  · intro src row_bytes mem dst dst_pitch height
    simp [uncompress_rle32]
  · intro mOk src row_bytes mem dst dst_pitch height
    cases mOk <;> simp [uncompress_rle32]

/-! ## The picture opcode interpreter (`picture_to_surface`) -/

/-- The decoded surface, as the decoder uses `SDL_Surface`: size, depth
and channel masks requested from `SDL_CreateRGBSurface`, the row pitch
the library chose, the palette, and the pixel memory. -/
structure Surface where
  width : ℕ
  height : ℕ
  depth : ℕ
  Rmask : ℕ
  Gmask : ℕ
  Bmask : ℕ
  pitch : ℕ
  palette : ℕ → ℕ × ℕ × ℕ
  pixels : ℕ → ℕ

/-- `SDL_ReadBE16` through a memory `SDL_RWops`: with fewer than two
bytes remaining the underlying read transfers nothing — the cursor does
not advance and the destination variable is left unspecified (modelled
as 0; no theorem depends on that value). -/
def readBE16 (buf : List ℕ) (pos : ℕ) : ℕ × ℕ :=
  if pos + 2 ≤ buf.length then (getByte buf pos * 256 + getByte buf (pos + 1), pos + 2)
  else (0, pos)

/-- `SDL_RWseek(p, n, SEEK_CUR)` on a memory stream: the new offset is
clamped to the buffer bounds. -/
def seekCur (buf : List ℕ) (pos : ℕ) (n : ℤ) : ℕ :=
  (min (max ((pos : ℤ) + n) 0) ((buf.length : ℕ) : ℤ)).toNat

/-- The `switch (pixel_size)` filling `Rmask/Gmask/Bmask`.  The switch
has no `default` case: for a depth other than 8, 16 or 32 the three
variables keep whatever (uninitialized) values they held, modelled by
the parameter `init`. -/
def pixel_masks (init : ℕ × ℕ × ℕ) (pixel_size : ℕ) : ℕ × ℕ × ℕ :=
  if pixel_size = 8 then (0xff, 0xff, 0xff)
  else if pixel_size = 16 then (0x7c00, 0x03e0, 0x001f)
  else if pixel_size = 32 then (0xff0000, 0x00ff00, 0x0000ff)
  else init

/-- One color-table entry assignment:
`pal->colors[SDL_ReadBE16(p) & 0xff].r/g/b = SDL_ReadBE16(p) >> 8` for
the three channels of the raw entry `(index, red, green, blue)`. -/
def ct_store (pal : ℕ → ℕ × ℕ × ℕ) (e : ℕ × ℕ × ℕ × ℕ) : ℕ → ℕ × ℕ × ℕ :=
  fun i => if i = e.1 % 256 then (e.2.1 / 256, e.2.2.1 / 256, e.2.2.2 / 256) else pal i

/-- Apply a sequence of raw color-table entries in order. -/
def ct_apply (pal : ℕ → ℕ × ℕ × ℕ) (es : List (ℕ × ℕ × ℕ × ℕ)) : ℕ → ℕ × ℕ × ℕ :=
  es.foldl ct_store pal

/-- The entry loop of the inline color table: read `n` entries, each a
16-bit palette index and three 16-bit channels, storing each channel's
high byte at the entry's (masked) index. -/
def read_ct_entries (buf : List ℕ) : ℕ → ℕ → (ℕ → ℕ × ℕ × ℕ) → (ℕ → ℕ × ℕ × ℕ) × ℕ
  | 0, pos, pal => (pal, pos)
  | n + 1, pos, pal =>
      let v := readBE16 buf pos
      let r := readBE16 buf v.2
      let g := readBE16 buf r.2
      let b := readBE16 buf g.2
      read_ct_entries buf n b.2 (ct_store pal (v.1, r.1, g.1, b.1))

/-- The inline color table of opcode `0x0098`: skip `ctSeed`/`ctFlags`
(6 bytes), read the color count (`N + 1` entries), then the entries. -/
def read_color_table (buf : List ℕ) (pos : ℕ) (pal : ℕ → ℕ × ℕ × ℕ) :
    (ℕ → ℕ × ℕ × ℕ) × ℕ :=
  read_ct_entries buf ((readBE16 buf (seekCur buf pos 6)).1 + 1)
    (readBE16 buf (seekCur buf pos 6)).2 pal

/-- Step 2 of the image-opcode handler: only the variant without a base
address (`0x0098`) carries an inline color table; `0x009a` reads none. -/
def palette_stage (opcode : ℕ) (buf : List ℕ) (pos : ℕ) (pal : ℕ → ℕ × ℕ × ℕ) :
    (ℕ → ℕ × ℕ × ℕ) × ℕ :=
  if opcode = 0x0098 then read_color_table buf pos pal else (pal, pos)

/-- Result of a decode: `ok` models `return s` (possibly `NULL`);
`fatalOp`/`fatalPack` model the two `exit(1)` calls (unknown opcode,
unimplemented packing type); `outOfFuel` marks that the modelled
`while (!done)` loop was cut off by the fuel bound. -/
inductive PResult where
  | ok : Option Surface → PResult
  | fatalOp : ℕ → PResult
  | fatalPack : ℕ → PResult
  | outOfFuel : ℕ → Option Surface → PResult

/-- The `0x0098`/`0x009a` image-opcode handler: parse the PixMap fields,
allocate the surface (`alloc` models `SDL_CreateRGBSurface`; on `none`
the code sets `done` and returns `NULL`), read the inline color table
for `0x0098`, skip the rectangles and transfer mode, then decompress the
remaining resource bytes — handed over as a raw pointer
(`rsrc.GetPointer() + SDL_RWtell(p)`), not through the bounded stream —
into the surface's pixels. -/
def handleImage (alloc : ℕ → ℕ → ℕ → ℕ × ℕ × ℕ → Option Surface)
    (initMasks : ℕ × ℕ × ℕ) (mallocOk : Bool) (buf : List ℕ) (opcode pos0 : ℕ) : PResult :=
  let p1 := if opcode = 0x009a then seekCur buf pos0 4 else pos0
  let rb := readBE16 buf p1
  let top := readBE16 buf rb.2
  let left := readBE16 buf top.2
  let bottom := readBE16 buf left.2
  let right := readBE16 buf bottom.2
  let height := (bottom.1 + 65536 - top.1) % 65536
  let width := (right.1 + 65536 - left.1) % 65536
  let pack_type := readBE16 buf (seekCur buf right.2 2)
  let pixel_size := readBE16 buf (seekCur buf pack_type.2 14)
  let p4 := seekCur buf pixel_size.2 16
  match alloc width height pixel_size.1 (pixel_masks initMasks pixel_size.1) with
  | none => .ok none
  | some s0 =>
      let palr := palette_stage opcode buf p4 s0.palette
      let p5 := seekCur buf palr.2 18
      match uncompress_picture mallocOk (buf.drop p5) (rb.1 % 0x4000) s0.pixels s0.pitch
          pixel_size.1 height pack_type.1 with
      | none => .fatalPack pack_type.1
      | some mem => .ok (some { s0 with palette := palr.1, pixels := mem })

/-- The `while (!done)` opcode loop.  Besides the result it returns the
list of opcodes processed, in order.  `fuel` bounds the iterations. -/
def runPict (alloc : ℕ → ℕ → ℕ → ℕ × ℕ × ℕ → Option Surface) (initMasks : ℕ × ℕ × ℕ)
    (mallocOk : Bool) (buf : List ℕ) : ℕ → ℕ → Option Surface → List ℕ × PResult
  | 0, pos, s => ([], .outOfFuel pos s)
  | fuel + 1, pos, s =>
      let op := readBE16 buf pos
      if op.1 = 0x0000 ∨ op.1 = 0x0011 ∨ op.1 = 0x001e ∨ op.1 = 0x02ff then
        -- NOP / VersionOp / DefHilite / Version
        let r := runPict alloc initMasks mallocOk buf fuel op.2 s
        (op.1 :: r.1, r.2)
      else if op.1 = 0x00a0 then
        -- ShortComment
        let r := runPict alloc initMasks mallocOk buf fuel (seekCur buf op.2 2) s
        (op.1 :: r.1, r.2)
      else if op.1 = 0x00a1 then
        -- LongComment
        let sz := readBE16 buf (seekCur buf op.2 2)
        let r := runPict alloc initMasks mallocOk buf fuel (seekCur buf sz.2 sz.1) s
        (op.1 :: r.1, r.2)
      else if op.1 = 0x0c00 then
        -- HeaderOp
        let r := runPict alloc initMasks mallocOk buf fuel (seekCur buf op.2 24) s
        (op.1 :: r.1, r.2)
      else if op.1 = 0x00ff then
        -- OpEndPic
        ([op.1], .ok s)
      else if op.1 = 0x0001 then
        -- Clipping region
        let sz := readBE16 buf op.2
        let r := runPict alloc initMasks mallocOk buf fuel (seekCur buf sz.2 ((sz.1 : ℤ) - 2)) s
        (op.1 :: r.1, r.2)
      else if op.1 = 0x0098 ∨ op.1 = 0x009a then
        -- Packed CopyBits: decode the image, then done
        ([op.1], handleImage alloc initMasks mallocOk buf op.1 op.2)
      else
        -- unknown opcode: fprintf + exit(1)
        ([op.1], .fatalOp op.1)

/-- `picture_to_surface`: skip the 10-byte `picSize`/`picRect` header,
then run the opcode loop. -/
def picture_to_surface (alloc : ℕ → ℕ → ℕ → ℕ × ℕ × ℕ → Option Surface)
    (initMasks : ℕ × ℕ × ℕ) (mallocOk : Bool) (buf : List ℕ) (fuel : ℕ) :
    List ℕ × PResult :=
  runPict alloc initMasks mallocOk buf fuel (seekCur buf 0 10) none

/-- The opcodes after which the interpreter keeps running: everything
except the two image opcodes, `OpEndPic` and the fatal unknown-opcode
case. -/
def nonTermB (op : ℕ) : Bool :=
  op == 0x0000 || op == 0x0011 || op == 0x001e || op == 0x02ff ||
    op == 0x00a0 || op == 0x00a1 || op == 0x0c00 || op == 0x0001

/-- A trace in which only the last processed opcode may be a
terminating one. -/
def traceOk : List ℕ → Bool
  | [] => true
  | [_] => true
  | op :: op2 :: rest => nonTermB op && traceOk (op2 :: rest)

theorem traceOk_cons {a : ℕ} {l : List ℕ} (ha : nonTermB a = true)
    (hl : traceOk l = true) : traceOk (a :: l) = true := by
  cases l with
  | nil => rfl
  | cons b t => simp [traceOk, ha, hl]

/-- C8: one decode call produces at most one image.  In every run of the
opcode loop, every opcode before the last processed one is a
non-terminating one (`traceOk`) — so once an image opcode (or the
end-of-picture opcode, or a fatal error) is processed the interpreter is
done and consumes no further opcodes, even if more follow in the stream —
and the number of image opcodes processed is at most one. -/
theorem at_most_one_image_opcode (alloc : ℕ → ℕ → ℕ → ℕ × ℕ × ℕ → Option Surface)
    (initMasks : ℕ × ℕ × ℕ) (mallocOk : Bool) (buf : List ℕ) :
    ∀ (fuel pos : ℕ) (s : Option Surface),
      traceOk (runPict alloc initMasks mallocOk buf fuel pos s).1 = true ∧
        (runPict alloc initMasks mallocOk buf fuel pos s).1.countP
          (fun op => op == 0x0098 || op == 0x009a) ≤ 1 := by
  intro fuel
  induction fuel with
  | zero => intro pos s; simp [runPict, traceOk]
  | succ fuel ih =>
    intro pos s
    have step : ∀ (p' : ℕ) (s' : Option Surface) (op : ℕ), nonTermB op = true →
        (op == 0x0098 || op == 0x009a) = false →
        traceOk (op :: (runPict alloc initMasks mallocOk buf fuel p' s').1) = true ∧
          (op :: (runPict alloc initMasks mallocOk buf fuel p' s').1).countP
            (fun o => o == 0x0098 || o == 0x009a) ≤ 1 := by
      intro p' s' op h1 h2
      obtain ⟨t1, t2⟩ := ih p' s'
      refine ⟨traceOk_cons h1 t1, ?_⟩
      rw [List.countP_cons, h2]
      simpa using t2
    have single : ∀ op : ℕ, traceOk [op] = true ∧
        ([op] : List ℕ).countP (fun o => o == 0x0098 || o == 0x009a) ≤ 1 := by
      intro op
      refine ⟨rfl, ?_⟩
      simp only [List.countP_cons, List.countP_nil]
      split <;> omega
    simp only [runPict]
    split_ifs with h1 h2 h3 h4 h5 h6 h7
    · exact step _ _ _ (by rcases h1 with h | h | h | h <;> simp [nonTermB, h])
        (by rcases h1 with h | h | h | h <;> simp [h])
    · exact step _ _ _ (by simp [nonTermB, h2]) (by simp [h2])
    · exact step _ _ _ (by simp [nonTermB, h3]) (by simp [h3])
    · exact step _ _ _ (by simp [nonTermB, h4]) (by simp [h4])
    · exact single _
    · exact step _ _ _ (by simp [nonTermB, h6]) (by simp [h6])
    · exact single _
    · exact single _

/-- The big-endian 16-bit value laid out at `p` — a pure view of the
buffer, used to state what the in-range color-table loop reads. -/
def be16 (buf : List ℕ) (p : ℕ) : ℕ := getByte buf p * 256 + getByte buf (p + 1)

/-- The `n` raw color-table entries laid out at `pos`: 8 bytes each,
four big-endian 16-bit fields (index, red, green, blue). -/
def ct_entries (buf : List ℕ) : ℕ → ℕ → List (ℕ × ℕ × ℕ × ℕ)
  | _, 0 => []
  | pos, n + 1 =>
      (be16 buf pos, be16 buf (pos + 2), be16 buf (pos + 4), be16 buf (pos + 6)) ::
        ct_entries buf (pos + 8) n

/-- As long as the entries lie inside the buffer, the entry loop applies
exactly the entries laid out at `pos` and advances 8 bytes per entry. -/
theorem read_ct_entries_spec (buf : List ℕ) :
    ∀ (n pos : ℕ) (pal : ℕ → ℕ × ℕ × ℕ), pos + 8 * n ≤ buf.length →
      read_ct_entries buf n pos pal =
        (ct_apply pal (ct_entries buf pos n), pos + 8 * n) := by
  intro n
  induction n with
  | zero =>
    intro pos pal _
    simp [read_ct_entries, ct_entries, ct_apply]
  | succ n ih =>
    intro pos pal h
    have r1 : readBE16 buf pos = (be16 buf pos, pos + 2) := by
      rw [readBE16, if_pos (by omega)]; rfl
    have r2 : readBE16 buf (pos + 2) = (be16 buf (pos + 2), pos + 4) := by
      rw [readBE16, if_pos (by omega)]; rfl
    have r3 : readBE16 buf (pos + 4) = (be16 buf (pos + 4), pos + 6) := by
      rw [readBE16, if_pos (by omega)]; rfl
    have r4 : readBE16 buf (pos + 6) = (be16 buf (pos + 6), pos + 8) := by
      rw [readBE16, if_pos (by omega)]; rfl
    rw [read_ct_entries]
    simp only [r1, r2, r3, r4]
    rw [ih (pos + 8) _ (by omega), ct_entries]
    refine Prod.ext ?_ (by simp; omega)
    rfl

/-- Entries are applied in order, so the palette value at index `i` is
the one stored by the *last* entry whose (masked) index is `i`, and the
original value where no entry covers `i`. -/
theorem ct_apply_last (pal : ℕ → ℕ × ℕ × ℕ) (es : List (ℕ × ℕ × ℕ × ℕ)) (i : ℕ) :
    ct_apply pal es i =
      ((es.filter (fun e => e.1 % 256 == i)).getLast?).elim (pal i)
        (fun e => (e.2.1 / 256, e.2.2.1 / 256, e.2.2.2 / 256)) := by
  induction es using List.reverseRecOn with
  | nil => simp [ct_apply]
  | append_singleton es e ih =>
    rw [ct_apply, List.foldl_append]
    simp only [List.foldl_cons, List.foldl_nil]
    rw [List.filter_append]
    by_cases he : e.1 % 256 = i
    · simp only [List.filter, he, beq_self_eq_true]
      rw [List.getLast?_concat]
      simp [ct_store, he]
    · have hne : (e.1 % 256 == i) = false := by simpa using he
      simp only [List.filter, hne]
      rw [List.append_nil]
      rw [ct_store] at *
      simp only [if_neg (fun hh : i = e.1 % 256 => he hh.symm)]
      exact ih

/-- C7: the inline color table.  (1) For the opcode variant without a
base-address field, the interpreter reads (after the skipped seed/flags
field) a color count `N` giving `N + 1` entries, each a palette index
and three 16-bit channels, and applies them in order, consuming 8 bytes
per entry.  (2) The high byte of each 16-bit channel is stored at the
entry's declared (masked) palette index, so entries may arrive in any
order, may cover only part of `0..255`, and a later entry for an index
overwrites an earlier one: the final value at `i` is the last entry for
`i`, or the prior palette value if no entry covers `i`.  (3) The
base-address variant (`0x009a`) reads no inline color table: its
palette stage returns the palette and cursor unchanged. -/
theorem inline_color_table_semantics :
    (∀ (buf : List ℕ) (pos : ℕ) (pal : ℕ → ℕ × ℕ × ℕ),
        (readBE16 buf (seekCur buf pos 6)).2 +
            8 * ((readBE16 buf (seekCur buf pos 6)).1 + 1) ≤ buf.length →
        read_color_table buf pos pal =
          (ct_apply pal (ct_entries buf (readBE16 buf (seekCur buf pos 6)).2
              ((readBE16 buf (seekCur buf pos 6)).1 + 1)),
            (readBE16 buf (seekCur buf pos 6)).2 +
              8 * ((readBE16 buf (seekCur buf pos 6)).1 + 1))) ∧
      (∀ (pal : ℕ → ℕ × ℕ × ℕ) (es : List (ℕ × ℕ × ℕ × ℕ)) (i : ℕ),
        ct_apply pal es i =
          ((es.filter (fun e => e.1 % 256 == i)).getLast?).elim (pal i)
            (fun e => (e.2.1 / 256, e.2.2.1 / 256, e.2.2.2 / 256))) ∧
      ∀ (buf : List ℕ) (pos : ℕ) (pal : ℕ → ℕ × ℕ × ℕ),
        palette_stage 0x009a buf pos pal = (pal, pos) := by
  refine ⟨?_, ct_apply_last, ?_⟩
  · intro buf pos pal h
    rw [read_color_table]
    exact read_ct_entries_spec buf _ _ pal h
  · intro buf pos pal
    rw [palette_stage, if_neg (by norm_num)]

/-- A 16-byte inline color table: 6 skipped seed/flags bytes, count 0
(one entry), and one entry assigning palette index 5 the channels
`0x1234 / 0x5678 / 0x9abc`. -/
def ctbuf : List ℕ :=
  [0, 0, 0, 0, 0, 0, 0, 0, 0, 5, 0x12, 0x34, 0x56, 0x78, 0x9a, 0xbc]

/-- The all-black palette (SDL initializes unset entries to zero). -/
def palZero : ℕ → ℕ × ℕ × ℕ := fun _ => (0, 0, 0)

/-- C7 witness: parsing `ctbuf` from position 0 applies exactly its one
laid-out entry and ends at position 16. -/
theorem inline_color_table_semantics_witness :
    ((readBE16 ctbuf (seekCur ctbuf 0 6)).2 +
        8 * ((readBE16 ctbuf (seekCur ctbuf 0 6)).1 + 1) ≤ ctbuf.length) ∧
      read_color_table ctbuf 0 palZero =
        (ct_apply palZero (ct_entries ctbuf (readBE16 ctbuf (seekCur ctbuf 0 6)).2
            ((readBE16 ctbuf (seekCur ctbuf 0 6)).1 + 1)),
          (readBE16 ctbuf (seekCur ctbuf 0 6)).2 +
            8 * ((readBE16 ctbuf (seekCur ctbuf 0 6)).1 + 1)) :=
  ⟨by decide, inline_color_table_semantics.1 ctbuf 0 palZero (by decide)⟩

/-- An `SDL_CreateRGBSurface` oracle that always succeeds and records
the requested dimensions, depth and channel masks in the surface
(pitch `width * 4`, zeroed palette and pixels, as SDL does). -/
def allocKeep : ℕ → ℕ → ℕ → ℕ × ℕ × ℕ → Option Surface :=
  fun w h d m => some ⟨w, h, d, m.1, m.2.1, m.2.2, w * 4, fun _ => (0, 0, 0), fun _ => 0⟩

/-- Did the decode return a surface (a non-`NULL` `SDL_Surface *`)? -/
def PResult.hasSurface : PResult → Bool
  | .ok (some _) => true
  | _ => false

/-- The channel masks of the returned surface (`dflt` if none). -/
def PResult.surfMasks (dflt : ℕ × ℕ × ℕ) : PResult → ℕ × ℕ × ℕ
  | .ok (some s) => (s.Rmask, s.Gmask, s.Bmask)
  | _ => dflt

/-- A minimal one-image resource, parameterized by the 16-bit pixel
depth `d`: 10 header bytes, opcode `0x009a`, 4 base-address bytes,
`rowBytes = 4` (uncompressed path), bounds 0/0/1/1 (a 1×1 image),
`pmVersion`, `packType = 0`, 14 skipped bytes, the pixel depth `d`,
16 skipped bytes, 18 skipped rectangle/mode bytes, 4 data bytes. -/
def c2buf (d : ℕ) : List ℕ :=
  [0, 0, 0, 0, 0, 0, 0, 0, 0, 0,
   0x00, 0x9a,
   0, 0, 0, 0,
   0, 4,
   0, 0, 0, 0, 0, 1, 0, 1,
   0, 0,
   0, 0,
   0, 0, 0, 0, 0, 0, 0, 0, 0, 0, 0, 0, 0, 0,
   d / 256, d % 256,
   0, 0, 0, 0, 0, 0, 0, 0, 0, 0, 0, 0, 0, 0, 0, 0,
   0, 0, 0, 0, 0, 0, 0, 0, 0, 0, 0, 0, 0, 0, 0, 0, 0, 0,
   1, 2, 3, 4]

/-- C2 counterexample: a resource whose image opcode declares pixel
depth 24 — outside {8, 16, 32}.  The claim says the decode must fail
with an unsupported-depth error and produce no raster; instead the
`switch (pixel_size)` simply has no case for 24 (the masks keep their
uninitialized values), `SDL_CreateRGBSurface` is still called, the
pixel data is still decompressed, and `picture_to_surface` returns a
surface. -/
theorem depth24_decode_returns_surface :
    ((picture_to_surface allocKeep (7, 8, 9) true (c2buf 24) 1).2).hasSurface = true := by
  decide

set_option maxRecDepth 4000 in
set_option maxHeartbeats 1000000 in
/-- C2 (amended): over the one-image resource family `c2buf d`, the
channel masks of the raster handed back by the decode are all-`0xff`
shared for depth 8, `0x7c00/0x03e0/0x001f` for depth 16 and
`0x00ff0000/0x0000ff00/0x000000ff` for depth 32; for every other depth
no error is raised — the masks keep whatever values `init` the
uninitialized variables held, and decoding proceeds to return a
surface anyway. -/
theorem picture_masks_by_depth (init : ℕ × ℕ × ℕ) (d : ℕ) (hd : d < 65536) :
    ((picture_to_surface allocKeep init true (c2buf d) 1).2).surfMasks (999, 999, 999) =
      (if d = 8 then (0xff, 0xff, 0xff)
       else if d = 16 then (0x7c00, 0x03e0, 0x001f)
       else if d = 32 then (0xff0000, 0x00ff00, 0x0000ff)
       else init) := by
  have hlen : (c2buf d).length = 84 := by simp [c2buf]
  have s0 : seekCur (c2buf d) 0 10 = 10 := by
    unfold seekCur
    rw [hlen]
    decide
  have r10 : readBE16 (c2buf d) 10 = (0x9a, 12) := by
    simp [readBE16, hlen, c2buf, getByte]
  have s12 : seekCur (c2buf d) 12 4 = 16 := by
    unfold seekCur
    rw [hlen]
    decide
  have r16 : readBE16 (c2buf d) 16 = (4, 18) := by
    simp [readBE16, hlen, c2buf, getByte]
  have r18 : readBE16 (c2buf d) 18 = (0, 20) := by
    simp [readBE16, hlen, c2buf, getByte]
  have r20 : readBE16 (c2buf d) 20 = (0, 22) := by
    simp [readBE16, hlen, c2buf, getByte]
  have r22 : readBE16 (c2buf d) 22 = (1, 24) := by
    simp [readBE16, hlen, c2buf, getByte]
  have r24 : readBE16 (c2buf d) 24 = (1, 26) := by
    simp [readBE16, hlen, c2buf, getByte]
  have s26 : seekCur (c2buf d) 26 2 = 28 := by
    unfold seekCur
    rw [hlen]
    decide
  have r28 : readBE16 (c2buf d) 28 = (0, 30) := by
    simp [readBE16, hlen, c2buf, getByte]
  have s30 : seekCur (c2buf d) 30 14 = 44 := by
    unfold seekCur
    rw [hlen]
    decide
  have r44 : readBE16 (c2buf d) 44 = (d, 46) := by
    simp [readBE16, hlen, c2buf, getByte]
    omega
  have s46 : seekCur (c2buf d) 46 16 = 62 := by
    unfold seekCur
    rw [hlen]
    decide
  have s62 : seekCur (c2buf d) 62 18 = 80 := by
    unfold seekCur
    rw [hlen]
    decide
  simp [picture_to_surface, runPict, handleImage, palette_stage, s0, r10, s12, r16,
    r18, r20, r22, r24, s26, r28, s30, r44, s46, s62, allocKeep, uncompress_picture,
    PResult.surfMasks]
  split_ifs <;> simp_all [pixel_masks]

/-- A minimal 32-bit planar one-image resource: 10 header bytes, opcode
`0x009a`, 4 base-address bytes, `rowBytes = 8`, bounds 0/0/1/2 (a 2×1
image), `pmVersion`, `packType = 4` (planar run length), 14 skipped
bytes, pixel depth 32, 16 skipped bytes, 18 skipped rectangle/mode
bytes. -/
def c3buf : List ℕ :=
  [0, 0, 0, 0, 0, 0, 0, 0, 0, 0,
   0x00, 0x9a,
   0, 0, 0, 0,
   0, 8,
   0, 0, 0, 0, 0, 1, 0, 2,
   0, 0,
   0, 4,
   0, 0, 0, 0, 0, 0, 0, 0, 0, 0, 0, 0, 0, 0,
   0, 32,
   0, 0, 0, 0, 0, 0, 0, 0, 0, 0, 0, 0, 0, 0, 0, 0,
   0, 0, 0, 0, 0, 0, 0, 0, 0, 0, 0, 0, 0, 0, 0, 0, 0, 0]

/-- C3 counterexample: decoding `c3buf` when the `malloc` of the 32-bit
planar path's temporary band buffer fails.  The claim says the decode as
a whole must then fail and return no complete raster; instead
`uncompress_rle32` returns silently without writing a pixel, and
`picture_to_surface` still returns the freshly allocated surface — a
partial-success path (here the surface's pixel at offset 0 is still the
allocator's initial 0, untouched by any decoding). -/
theorem malloc_failure_still_returns_surface :
    ((picture_to_surface allocKeep (7, 8, 9) false c3buf 1).2).hasSurface = true := by
  decide

/-- C2 witness: the mask family theorem applied at the concrete depth 16
resource — the decode hands back the 5-5-5 masks. -/
theorem picture_masks_by_depth_witness :
    (16 : ℕ) < 65536 ∧
      ((picture_to_surface allocKeep (7, 8, 9) true (c2buf 16) 1).2).surfMasks (999, 999, 999) =
        (if (16 : ℕ) = 8 then ((0xff : ℕ), (0xff : ℕ), (0xff : ℕ))
         else if (16 : ℕ) = 16 then (0x7c00, 0x03e0, 0x001f)
         else if (16 : ℕ) = 32 then (0xff0000, 0x00ff00, 0x0000ff)
         else (7, 8, 9)) :=
  ⟨by norm_num, picture_masks_by_depth (7, 8, 9) 16 (by norm_num)⟩
